import Mathlib

/-!
# Verification of the Largo interpreter core

This development is a shallow embedding of the Largo interpreter
(`src/lib.rs`): tokenizer, recursive-descent parser, default environment
with the `+` and `-` builtins, and the tree evaluator.

Modelling conventions:
* Rust `String` values that the program inspects character by character
  (program text, tokens, symbol names) are modelled as `List Char`
  (abbreviated `Str`); error messages, which are only ever constructed and
  compared whole, are modelled as Lean `String`.
* Rust `f64` is idealized as the exact rationals `ℚ`.  The arithmetic the
  program performs (sums and a fold-subtract) is modelled exactly; the
  special floating-point values (`inf`, `NaN`) and rounding are outside
  this idealization, so the model of `str::parse::<f64>` recognizes
  exactly the finite decimal/exponent literals.
* Rust `fn` pointers stored in `Expr::Func` are defunctionalized: the
  program only ever constructs the two builtins installed by
  `default_env`, so `Func` carries a tag (`NativeOp`) interpreted by
  `applyOp`, which holds the bodies of the two closures verbatim.
* `eval` takes `&mut Env`; it is embedded in state-passing style,
  returning the (possibly updated) environment next to the
  `Result`-value, so that non-mutation is a provable statement rather
  than a modelling artifact.
* The parser (`parse`/`read_seq`) recurses on the unconsumed token list,
  which Lean cannot see as structurally decreasing, so it is defined via
  a fuel counter large enough to be proven sufficient
  (`parse_suff`), and the fuel-free `parse`/`read_seq`
  satisfy the source equations (`parse_nil`, `parse_cons_open`, ...).
-/

namespace Largo

/- Batteries marks the arithmetic on `Rat` irreducible, which blocks
elaborator-side evaluation of concrete interpreter runs; restore
reducibility locally so that `decide`/`rfl` can compute with ℚ. -/
attribute [local semireducible] Rat.add Rat.mul Rat.inv Rat.sub

/-- Program text, tokens and symbol names: Rust `String` as a character list. -/
abbrev Str := List Char

/-- Embed a Lean string literal into the character-list model. -/
def str (s : String) : Str := s.data

/-- Rust `enum Error { Reason(String) }`: the single error kind. -/
inductive Err where
  | Reason : String → Err
deriving DecidableEq

/-- Tags for the two native operations the program ever constructs
(the closures inserted by `default_env` for `"+"` and `"-"`). -/
inductive NativeOp where
  | add : NativeOp
  | sub : NativeOp
deriving DecidableEq

/-- Rust `enum Expr { Symbol(String), Number(f64), List(Vec<Expr>), Func(fn ...) }`.
`Func` is defunctionalized to a `NativeOp` tag interpreted by `applyOp`. -/
inductive Expr where
  | Symbol : Str → Expr
  | Number : ℚ → Expr
  | List : List Expr → Expr
  | Func : NativeOp → Expr

/-! ## Splitting on separator characters

Rust's `split_whitespace` is modelled by `splitP` with the whitespace
predicate: split into maximal runs, discarding empty fragments.
`rawSplit` keeps the empty fragments; it is the induction-friendly core. -/

/-- Fragments of `cs` between separator characters, empty fragments included.
Always returns at least one fragment. -/
def rawSplit (p : Char → Bool) : Str → List Str
  | [] => [[]]
  | c :: cs =>
    if p c then [] :: rawSplit p cs
    else
      match rawSplit p cs with
      | [] => [[c]]
      | t :: ts => (c :: t) :: ts

/-- Split `cs` at separator characters, discarding empty fragments
(the behaviour of Rust's `split_whitespace` for `p = isWhitespace`). -/
def splitP (p : Char → Bool) (cs : Str) : List Str :=
  (rawSplit p cs).filter (fun t => !t.isEmpty)

/-- Rust `expr.replace("(", " ( ").replace(")", " ) ")`: pad every
parenthesis with spaces.  The two `replace` calls commute into one pass
because the inserted spaces are not parentheses. -/
def pad : Str → Str
  | [] => []
  | c :: cs =>
    if c = '(' then ' ' :: '(' :: ' ' :: pad cs
    else if c = ')' then ' ' :: ')' :: ' ' :: pad cs
    else c :: pad cs

/-- Rust `fn tokenize(expr: String) -> Vec<String>`.  Rust's
`split_whitespace` splits on Unicode whitespace; `Char.isWhitespace`
models its ASCII fragment (space, tab, CR, LF), which is the alphabet
the program's own padding and rendering use. -/
def tokenize (expr : Str) : List Str :=
  splitP (fun c => c.isWhitespace) (pad expr)

/-! ## Basic lemmas about `rawSplit`, `splitP` and `pad` -/

theorem rawSplit_ne_nil (p : Char → Bool) (cs : Str) : rawSplit p cs ≠ [] := by
  cases cs with
  | nil => simp [rawSplit]
  | cons c cs =>
    simp only [rawSplit]
    split
    · simp
    · split <;> simp

theorem rawSplit_sep_cons {p : Char → Bool} {c : Char} (h : p c) (cs : Str) :
    rawSplit p (c :: cs) = [] :: rawSplit p cs := by
  simp [rawSplit, h]

theorem rawSplit_nonsep_cons {p : Char → Bool} {c : Char} (h : ¬ p c) {cs : Str}
    {t : Str} {ts : List Str} (hcs : rawSplit p cs = t :: ts) :
    rawSplit p (c :: cs) = (c :: t) :: ts := by
  simp [rawSplit, h, hcs]

/-- Splitting distributes over an append whose junction is a separator. -/
theorem rawSplit_append_sep {p : Char → Bool} {c : Char} (h : p c) (u v : Str) :
    rawSplit p (u ++ c :: v) = rawSplit p u ++ rawSplit p v := by
  induction u with
  | nil => simp [rawSplit, h]
  | cons d u ih =>
    by_cases hd : p d
    · simp only [List.cons_append, rawSplit_sep_cons hd, ih, List.cons_append]
    · obtain ⟨t, ts, hru⟩ := List.exists_cons_of_ne_nil (rawSplit_ne_nil p u)
      rw [List.cons_append, rawSplit_nonsep_cons hd (by rw [ih, hru]; rfl),
        rawSplit_nonsep_cons hd hru]
      simp

theorem splitP_nil (p : Char → Bool) : splitP p [] = [] := by
  simp [splitP, rawSplit]

theorem splitP_sep_cons {p : Char → Bool} {c : Char} (h : p c) (cs : Str) :
    splitP p (c :: cs) = splitP p cs := by
  simp [splitP, rawSplit_sep_cons h]

theorem splitP_append_sep {p : Char → Bool} {c : Char} (h : p c) (u v : Str) :
    splitP p (u ++ c :: v) = splitP p u ++ splitP p v := by
  simp [splitP, rawSplit_append_sep h]

/-- A nonempty separator-free string is a single fragment. -/
theorem rawSplit_no_sep {p : Char → Bool} {cs : Str} (h : ∀ c ∈ cs, ¬ p c) :
    rawSplit p cs = [cs] := by
  induction cs with
  | nil => simp [rawSplit]
  | cons c cs ih =>
    have hc : ¬ p c := h c (by simp)
    rw [rawSplit_nonsep_cons hc (ih (fun d hd => h d (by simp [hd])))]

theorem splitP_no_sep {p : Char → Bool} {cs : Str} (h : ∀ c ∈ cs, ¬ p c)
    (hne : cs ≠ []) : splitP p cs = [cs] := by
  simp [splitP, rawSplit_no_sep h, hne]

theorem splitP_all_sep {p : Char → Bool} {w : Str} (h : ∀ c ∈ w, p c) :
    splitP p w = [] := by
  induction w with
  | nil => exact splitP_nil p
  | cons c w ih =>
    rw [splitP_sep_cons (h c (by simp))]
    exact ih (fun d hd => h d (by simp [hd]))

theorem splitP_all_sep_append {p : Char → Bool} {w : Str} (h : ∀ c ∈ w, p c)
    (v : Str) : splitP p (w ++ v) = splitP p v := by
  induction w with
  | nil => simp
  | cons c w ih =>
    rw [List.cons_append, splitP_sep_cons (h c (by simp))]
    exact ih (fun d hd => h d (by simp [hd]))

theorem pad_append (a b : Str) : pad (a ++ b) = pad a ++ pad b := by
  induction a with
  | nil => simp [pad]
  | cons c a ih =>
    by_cases h1 : c = '('
    · simp [pad, h1, ih]
    · by_cases h2 : c = ')' <;> simp [pad, h1, h2, ih]

theorem pad_no_paren {s : Str} (h : ∀ c ∈ s, c ≠ '(' ∧ c ≠ ')') : pad s = s := by
  induction s with
  | nil => rfl
  | cons c s ih =>
    have hc := h c (by simp)
    simp [pad, hc.1, hc.2, ih (fun d hd => h d (by simp [hd]))]

/-- Splitting on the union of two separator sets factors through splitting
on the first set: the raw fragments of the first split, re-split on the
second predicate. -/
theorem rawSplit_comp (p q : Char → Bool) (cs : Str) :
    rawSplit (fun c => p c || q c) cs =
      ((rawSplit p cs).map (rawSplit q)).flatten := by
  induction cs with
  | nil => simp [rawSplit]
  | cons c cs ih =>
    by_cases hp : p c
    · rw [@rawSplit_sep_cons (fun c => p c || q c) c (by simp [hp]) cs,
        rawSplit_sep_cons hp, ih]
      simp [rawSplit]
    · obtain ⟨t, ts, hts⟩ := List.exists_cons_of_ne_nil (rawSplit_ne_nil p cs)
      rw [rawSplit_nonsep_cons hp hts]
      by_cases hq : q c
      · rw [@rawSplit_sep_cons (fun c => p c || q c) c (by simp [hp, hq]) cs, ih, hts]
        simp [rawSplit_sep_cons hq]
      · obtain ⟨t2, ts2, hts2⟩ := List.exists_cons_of_ne_nil (rawSplit_ne_nil q t)
        have hco : rawSplit (fun c => p c || q c) cs = t2 :: (ts2 ++ (ts.map (rawSplit q)).flatten) := by
          rw [ih, hts]; simp [hts2]
        rw [@rawSplit_nonsep_cons (fun c => p c || q c) c (by simp [hp, hq]) cs t2 (ts2 ++ (ts.map (rawSplit q)).flatten) hco]
        simp [rawSplit_nonsep_cons hq hts2]

theorem filter_flatten_of_filter {α : Type} (f : α → List α) (g : α → Bool)
    (l : List α) (h : ∀ x, g x = false → f x = []) :
    ((l.filter g).map f).flatten = (l.map f).flatten := by
  induction l with
  | nil => rfl
  | cons x xs ih =>
    by_cases hx : g x
    · simp [List.filter_cons, hx, ih]
    · simp only [Bool.not_eq_true] at hx
      simp [List.filter_cons, hx, h x hx, ih]

theorem splitP_empty_frag (q : Char → Bool) : splitP q [] = [] := splitP_nil q

/-- `splitP` on the union of two separator sets equals `splitP` on the
first, with each resulting fragment re-split on the second. -/
theorem splitP_comp (p q : Char → Bool) (cs : Str) :
    splitP (fun c => p c || q c) cs = ((splitP p cs).map (splitP q)).flatten := by
  have h1 : splitP (fun c => p c || q c) cs
      = ((rawSplit p cs).map (splitP q)).flatten := by
    rw [splitP, rawSplit_comp p q cs]
    rw [List.filter_flatten]
    rw [List.map_map]
    rfl
  rw [h1, splitP]
  rw [filter_flatten_of_filter (splitP q) (fun t => !t.isEmpty)]
  intro x hx
  have : x = [] := by
    cases x with
    | nil => rfl
    | cons a b => simp [List.isEmpty] at hx
  rw [this, splitP_nil]

/-! ## Numeric atoms

`parse_atom` classifies a token by `token.parse::<f64>()`.  The model
`numParse` recognizes the finite-literal grammar of Rust's `f64`
`FromStr` (optional sign, digits with optional fraction — at least one
digit in the mantissa — and an optional `e`/`E` exponent), producing the
exact rational value.  `numToString` models `f64`'s `Display` (used by
`Expr`'s `Display`): sign, integer digits, and, when the fractional part
is nonzero, a dot and the exact fraction digits (trailing-zero free);
this is the exact-value idealization of Rust's shortest-roundtrip
printing. -/

/-- Value of a nonempty digit run. -/
def digitsToNat (ds : Str) : Nat :=
  ds.foldl (fun a c => 10 * a + (c.toNat - '0'.toNat)) 0

def natDigitsAux : Nat → Nat → Str
  | 0, _ => []
  | fuel + 1, n =>
    if n < 10 then [Nat.digitChar n]
    else natDigitsAux fuel (n / 10) ++ [Nat.digitChar (n % 10)]

/-- Decimal digits of a natural number (modelling Rust's integer printing). -/
def natDigits (n : Nat) : Str := natDigitsAux (n + 1) n

/-- Decimal expansion digits of `num/den` (with `num < den`), fuel-bounded. -/
def fracDigits : Nat → Nat → Nat → Str
  | 0, _, _ => []
  | fuel + 1, num, den =>
    if num = 0 then []
    else Nat.digitChar (num * 10 / den) :: fracDigits fuel (num * 10 % den) den

/-- Model of Rust's `f64` `Display` on the exact rational value. -/
def numToString (q : ℚ) : Str :=
  let sgn : Str := if q < 0 then ['-'] else []
  let n := q.num.natAbs
  let d := q.den
  sgn ++ natDigits (n / d) ++
    (if n % d = 0 then [] else '.' :: fracDigits d (n % d) d)

/-- Model of `token.parse::<f64>()` on Rust's finite-literal grammar,
with the exact rational value. -/
def numParse (t : Str) : Option ℚ :=
  let sr : ℚ × Str :=
    match t with
    | '-' :: r => (-1, r)
    | '+' :: r => (1, r)
    | _ => (1, t)
  let sgn := sr.1
  let r0 := sr.2
  let ip := r0.takeWhile Char.isDigit
  let r1 := r0.dropWhile Char.isDigit
  let fr : Str × Str :=
    match r1 with
    | '.' :: r => (r.takeWhile Char.isDigit, r.dropWhile Char.isDigit)
    | _ => ([], r1)
  let fp := fr.1
  let r2 := fr.2
  if ip = [] ∧ fp = [] then none
  else
    let mant : ℚ := (digitsToNat ip : ℚ) + (digitsToNat fp : ℚ) / ((10 : ℚ) ^ fp.length)
    match r2 with
    | [] => some (sgn * mant)
    | e :: r3 =>
      if e = 'e' ∨ e = 'E' then
        let er : Int × Str :=
          match r3 with
          | '-' :: r => (-1, r)
          | '+' :: r => (1, r)
          | _ => (1, r3)
        let ed := er.2.takeWhile Char.isDigit
        let r5 := er.2.dropWhile Char.isDigit
        if ed = [] ∨ r5 ≠ [] then none
        else some (sgn * mant * (10 : ℚ) ^ (er.1 * (digitsToNat ed : Int)))
      else none

/-- Rust `fn parse_atom(token: &str) -> Expr`: a token is a `Number`
exactly when it parses wholly as a float, otherwise a `Symbol`. -/
def parse_atom (token : Str) : Expr :=
  match numParse token with
  | some v => .Number v
  | none => .Symbol token

/-! ## The parser

Rust `parse`/`read_seq` recurse on the unconsumed token slice.  The
fuel-indexed `parseF`/`readSeqF` mirror them literally (with `none` for
fuel exhaustion); `parse_suff` shows `2·length + 2` fuel always
suffices, so the fuel-free `parse`/`read_seq` below are total and
satisfy the equations of the source (`parse_nil` .. `readSeqAux_cons`). -/

mutual
def parseF : Nat → List Str → Option (Except Err (Expr × List Str))
  | 0, _ => none
  | fuel + 1, ts =>
    match ts with
    | [] => some (.error (.Reason ("Could not get token")))
    | t :: rest =>
      if t = ['('] then readSeqF fuel [] rest
      else if t = [')'] then some (.error (.Reason ("Unexpected `)`")))
      else some (.ok (parse_atom t, rest))
termination_by structural fuel => fuel

def readSeqF : Nat → List Expr → List Str → Option (Except Err (Expr × List Str))
  | 0, _, _ => none
  | fuel + 1, acc, ts =>
    match ts with
    | [] => some (.error (.Reason ("Could not find closing `)`")))
    | next :: rest =>
      if next = [')'] then some (.ok (.List acc, rest))
      else
        match parseF fuel (next :: rest) with
        | none => none
        | some (.error e) => some (.error e)
        | some (.ok (exp, nxs)) => readSeqF fuel (acc ++ [exp]) nxs
termination_by structural fuel => fuel
end

/-! One-step unfolding equations for the fuel-indexed parser. -/

theorem parseF_succ_nil (f : Nat) :
    parseF (f + 1) [] = some (.error (.Reason ("Could not get token"))) := rfl

theorem parseF_succ_cons (f : Nat) (t : Str) (rest : List Str) :
    parseF (f + 1) (t :: rest) =
      if t = ['('] then readSeqF f [] rest
      else if t = [')'] then some (.error (.Reason ("Unexpected `)`")))
      else some (.ok (parse_atom t, rest)) := rfl

theorem readSeqF_succ_nil (f : Nat) (acc : List Expr) :
    readSeqF (f + 1) acc [] = some (.error (.Reason ("Could not find closing `)`"))) := rfl

theorem readSeqF_succ_cons (f : Nat) (acc : List Expr) (next : Str) (rest : List Str) :
    readSeqF (f + 1) acc (next :: rest) =
      if next = [')'] then some (.ok (.List acc, rest))
      else
        match parseF f (next :: rest) with
        | none => none
        | some (.error e) => some (.error e)
        | some (.ok (exp, nxs)) => readSeqF f (acc ++ [exp]) nxs := rfl

/-- A successful parse consumes at least one token. -/
theorem parseF_consumes_all (fuel : Nat) :
    (∀ ts e r, parseF fuel ts = some (.ok (e, r)) → r.length < ts.length) ∧
    (∀ acc ts e r, readSeqF fuel acc ts = some (.ok (e, r)) → r.length < ts.length) := by
  induction fuel with
  | zero =>
    refine ⟨fun ts e r h => ?_, fun acc ts e r h => ?_⟩ <;> simp [parseF, readSeqF] at h
  | succ f ih =>
    constructor
    · intro ts e r h
      match ts with
      | [] => rw [parseF_succ_nil] at h; simp at h
      | t :: rest =>
        rw [parseF_succ_cons] at h
        by_cases h1 : t = ['(']
        · rw [if_pos h1] at h
          have := ih.2 [] rest e r h
          simp only [List.length_cons]
          omega
        · rw [if_neg h1] at h
          by_cases h2 : t = [')']
          · rw [if_pos h2] at h; simp at h
          · rw [if_neg h2] at h
            simp only [Option.some.injEq, Except.ok.injEq, Prod.mk.injEq] at h
            simp [← h.2]
    · intro acc ts e r h
      match ts with
      | [] => rw [readSeqF_succ_nil] at h; simp at h
      | next :: rest =>
        rw [readSeqF_succ_cons] at h
        by_cases h1 : next = [')']
        · rw [if_pos h1] at h
          simp only [Option.some.injEq, Except.ok.injEq, Prod.mk.injEq] at h
          simp [← h.2]
        · rw [if_neg h1] at h
          cases hp : parseF f (next :: rest) with
          | none => rw [hp] at h; simp at h
          | some y =>
            rw [hp] at h
            cases y with
            | error e2 => simp at h
            | ok pr =>
              obtain ⟨exp, nxs⟩ := pr
              simp only at h
              have hc1 := ih.1 (next :: rest) exp nxs hp
              have hc2 := ih.2 (acc ++ [exp]) nxs e r h
              simp only [List.length_cons] at hc1 ⊢
              omega

/-- Fuel monotonicity: a settled result is preserved by more fuel. -/
theorem parseF_mono_succ (fuel : Nat) :
    (∀ ts x, parseF fuel ts = some x → parseF (fuel + 1) ts = some x) ∧
    (∀ acc ts x, readSeqF fuel acc ts = some x → readSeqF (fuel + 1) acc ts = some x) := by
  induction fuel with
  | zero =>
    refine ⟨fun ts x h => ?_, fun acc ts x h => ?_⟩ <;> simp [parseF, readSeqF] at h
  | succ f ih =>
    constructor
    · intro ts x h
      match ts with
      | [] => exact h
      | t :: rest =>
        rw [parseF_succ_cons] at h
        rw [parseF_succ_cons]
        by_cases h1 : t = ['(']
        · rw [if_pos h1] at h ⊢
          exact ih.2 [] rest x h
        · rw [if_neg h1] at h ⊢
          exact h
    · intro acc ts x h
      match ts with
      | [] => exact h
      | next :: rest =>
        rw [readSeqF_succ_cons] at h
        rw [readSeqF_succ_cons]
        by_cases h1 : next = [')']
        · rw [if_pos h1] at h ⊢
          exact h
        · rw [if_neg h1] at h ⊢
          cases hp : parseF f (next :: rest) with
          | none => rw [hp] at h; simp at h
          | some y =>
            rw [hp] at h
            rw [ih.1 (next :: rest) y hp]
            cases y with
            | error e2 => exact h
            | ok pr =>
              obtain ⟨exp, nxs⟩ := pr
              simp only at h ⊢
              exact ih.2 (acc ++ [exp]) nxs x h

theorem parseF_mono {f f' : Nat} (hle : f ≤ f') {ts : List Str}
    {x : Except Err (Expr × List Str)} (h : parseF f ts = some x) :
    parseF f' ts = some x := by
  induction hle with
  | refl => exact h
  | step _ ih => exact (parseF_mono_succ _).1 _ _ ih

theorem readSeqF_mono {f f' : Nat} (hle : f ≤ f') {acc : List Expr} {ts : List Str}
    {x : Except Err (Expr × List Str)} (h : readSeqF f acc ts = some x) :
    readSeqF f' acc ts = some x := by
  induction hle with
  | refl => exact h
  | step _ ih => exact (parseF_mono_succ _).2 _ _ _ ih

/-- Fuel sufficiency: `2·length + 2` (resp. `2·length + 3`) fuel never runs out. -/
theorem parse_suff (fuel : Nat) :
    (∀ ts : List Str, 2 * ts.length + 2 ≤ fuel → (parseF fuel ts).isSome) ∧
    (∀ (acc : List Expr) (ts : List Str), 2 * ts.length + 3 ≤ fuel →
      (readSeqF fuel acc ts).isSome) := by
  induction fuel with
  | zero => refine ⟨fun ts h => ?_, fun acc ts h => ?_⟩ <;> omega
  | succ f ih =>
    constructor
    · intro ts hlen
      match ts with
      | [] => rw [parseF_succ_nil]; rfl
      | t :: rest =>
        rw [parseF_succ_cons]
        by_cases h1 : t = ['(']
        · rw [if_pos h1]
          refine ih.2 [] rest ?_
          simp only [List.length_cons] at hlen
          omega
        · rw [if_neg h1]
          by_cases h2 : t = [')'] <;> simp [h2]
    · intro acc ts hlen
      match ts with
      | [] => rw [readSeqF_succ_nil]; rfl
      | next :: rest =>
        rw [readSeqF_succ_cons]
        by_cases h1 : next = [')']
        · rw [if_pos h1]; rfl
        · rw [if_neg h1]
          have hp : (parseF f (next :: rest)).isSome := by
            refine ih.1 (next :: rest) ?_
            simp only [List.length_cons] at hlen ⊢
            omega
          cases hpe : parseF f (next :: rest) with
          | none => rw [hpe] at hp; simp at hp
          | some y =>
            cases y with
            | error e2 => rfl
            | ok pr =>
              obtain ⟨exp, nxs⟩ := pr
              simp only
              have hcons := (parseF_consumes_all f).1 (next :: rest) exp nxs hpe
              refine ih.2 (acc ++ [exp]) nxs ?_
              simp only [List.length_cons] at hcons hlen
              omega

/-- Rust `fn parse(tokens: &[String]) -> Result<(Expr, &[String])>`. -/
def parse (ts : List Str) : Except Err (Expr × List Str) :=
  (parseF (2 * ts.length + 2) ts).get ((parse_suff _).1 ts (by omega))

/-- The loop body of Rust `read_seq`, with the accumulated `result` explicit. -/
def readSeqAux (acc : List Expr) (ts : List Str) : Except Err (Expr × List Str) :=
  (readSeqF (2 * ts.length + 3) acc ts).get ((parse_suff _).2 acc ts (by omega))

/-- Rust `fn read_seq(tokens: &[String]) -> Result<(Expr, &[String])>`
(the loop's accumulator starts empty). -/
def read_seq (ts : List Str) : Except Err (Expr × List Str) :=
  readSeqAux [] ts

theorem parseF_eq_some {f : Nat} {ts : List Str} (h : 2 * ts.length + 2 ≤ f) :
    parseF f ts = some (parse ts) := by
  have hs := (parse_suff (2 * ts.length + 2)).1 ts (by omega)
  cases hx : parseF (2 * ts.length + 2) ts with
  | none => rw [hx] at hs; simp at hs
  | some x =>
    have hpx : parse ts = x := by simp [parse, hx]
    rw [hpx]
    exact parseF_mono h hx

theorem readSeqF_eq_some {f : Nat} {acc : List Expr} {ts : List Str}
    (h : 2 * ts.length + 3 ≤ f) :
    readSeqF f acc ts = some (readSeqAux acc ts) := by
  have hs := (parse_suff (2 * ts.length + 3)).2 acc ts (by omega)
  cases hx : readSeqF (2 * ts.length + 3) acc ts with
  | none => rw [hx] at hs; simp at hs
  | some x =>
    have hpx : readSeqAux acc ts = x := by simp [readSeqAux, hx]
    rw [hpx]
    exact readSeqF_mono h hx

theorem parse_eq_of_parseF {f : Nat} {ts : List Str} {x : Except Err (Expr × List Str)}
    (h : 2 * ts.length + 2 ≤ f) (hx : parseF f ts = some x) : parse ts = x := by
  have hc := parseF_eq_some h
  rw [hx] at hc
  exact Option.some_injective _ hc.symm

theorem readSeqAux_eq_of_readSeqF {f : Nat} {acc : List Expr} {ts : List Str}
    {x : Except Err (Expr × List Str)} (h : 2 * ts.length + 3 ≤ f)
    (hx : readSeqF f acc ts = some x) : readSeqAux acc ts = x := by
  have hc := @readSeqF_eq_some f acc ts h
  rw [hx] at hc
  exact Option.some_injective _ hc.symm

/-! Source-level equations for `parse` and `read_seq`. -/

theorem parse_nil : parse [] = .error (.Reason ("Could not get token")) := rfl

theorem parse_cons_open (rest : List Str) :
    parse (['('] :: rest) = readSeqAux [] rest := by
  have hx : parseF ((2 * rest.length + 3) + 1) (['('] :: rest) =
      some (readSeqAux [] rest) := by
    rw [parseF_succ_cons, if_pos rfl]
    exact readSeqF_eq_some (by omega)
  exact parse_eq_of_parseF (by simp only [List.length_cons]; omega) hx

theorem parse_cons_close (rest : List Str) :
    parse ([')'] :: rest) = .error (.Reason ("Unexpected `)`")) := by
  have hx : parseF ((2 * rest.length + 3) + 1) ([')'] :: rest) =
      some (.error (.Reason ("Unexpected `)`"))) := by
    rw [parseF_succ_cons]
    simp
  exact parse_eq_of_parseF (by simp only [List.length_cons]; omega) hx

theorem parse_cons_atom {t : Str} (h1 : t ≠ ['(']) (h2 : t ≠ [')']) (rest : List Str) :
    parse (t :: rest) = .ok (parse_atom t, rest) := by
  have hx : parseF ((2 * rest.length + 3) + 1) (t :: rest) =
      some (.ok (parse_atom t, rest)) := by
    rw [parseF_succ_cons, if_neg h1, if_neg h2]
  exact parse_eq_of_parseF (by simp only [List.length_cons]; omega) hx

theorem readSeqAux_nil (acc : List Expr) :
    readSeqAux acc [] = .error (.Reason ("Could not find closing `)`")) := rfl

theorem readSeqAux_close (acc : List Expr) (rest : List Str) :
    readSeqAux acc ([')'] :: rest) = .ok (.List acc, rest) := by
  have hx : readSeqF ((2 * rest.length + 4) + 1) acc ([')'] :: rest) =
      some (.ok (.List acc, rest)) := by
    rw [readSeqF_succ_cons, if_pos rfl]
  exact readSeqAux_eq_of_readSeqF (by simp only [List.length_cons]; omega) hx

theorem readSeqAux_cons {next : Str} (h : next ≠ [')']) (acc : List Expr)
    (rest : List Str) :
    readSeqAux acc (next :: rest) =
      match parse (next :: rest) with
      | .error e => .error e
      | .ok (exp, nxs) => readSeqAux (acc ++ [exp]) nxs := by
  refine @readSeqAux_eq_of_readSeqF ((2 * (next :: rest).length + 2) + 1) acc
    (next :: rest) _ (by simp only [List.length_cons]; omega) ?_
  rw [readSeqF_succ_cons, if_neg h]
  rw [parseF_eq_some (by omega)]
  cases hp : parse (next :: rest) with
  | error e2 => rfl
  | ok pr =>
    obtain ⟨exp, nxs⟩ := pr
    simp only
    have hcons : nxs.length < (next :: rest).length := by
      refine (parseF_consumes_all (2 * (next :: rest).length + 2)).1 (next :: rest)
        exp nxs ?_
      rw [parseF_eq_some (by omega), hp]
    refine readSeqF_eq_some ?_
    simp only [List.length_cons] at hcons ⊢
    omega

/-- A successful `parse` consumes at least one token. -/
theorem parse_consumes {ts : List Str} {e : Expr} {r : List Str}
    (h : parse ts = .ok (e, r)) : r.length < ts.length := by
  refine (parseF_consumes_all (2 * ts.length + 2)).1 ts e r ?_
  rw [parseF_eq_some (by omega), h]


/-! ## Environment and builtins -/

/-- Rust `struct Env { data: HashMap<String, Expr> }`.  The map is
modelled as an association list; `default_env` only inserts the two
distinct keys `"+"` and `"-"`, for which list lookup and hash-map lookup
agree. -/
structure Env where
  data : List (Str × Expr)

/-- Rust `fn parse_single_float(exp: &Expr) -> Result<f64>`. -/
def parse_single_float : Expr → Except Err ℚ
  | .Number num => .ok num
  | _ => .error (.Reason ("Expected a number"))

/-- Rust `fn parse_list_of_floats(floats: &[Expr]) -> Result<Vec<f64>>`:
`iter().map(parse_single_float).collect::<Result<_>>()` stops at the
first failure. -/
def parse_list_of_floats : List Expr → Except Err (List ℚ)
  | [] => .ok []
  | exp :: rest =>
    match parse_single_float exp with
    | .error e => .error e
    | .ok v =>
      match parse_list_of_floats rest with
      | .error e => .error e
      | .ok vs => .ok (v :: vs)

/-- The bodies of the two closures that `default_env` installs for `"+"`
and `"-"` (`Func` is defunctionalized to the `NativeOp` tag). -/
def applyOp : NativeOp → List Expr → Except Err Expr
  | .add, args =>
    match parse_list_of_floats args with
    | .error e => .error e
    | .ok floats => .ok (.Number (floats.foldl (· + ·) 0))
  | .sub, args =>
    match parse_list_of_floats args with
    | .error e => .error e
    | .ok floats =>
      match floats with
      | [] => .error (.Reason ("`-` requires at least one operand"))
      | first :: rest => .ok (.Number (first - rest.foldl (· + ·) 0))

/-- Rust `fn default_env() -> Env` (inserts `"+"`, then `"-"`). -/
def default_env : Env :=
  { data := [(str ("+"), .Func .add), (str ("-"), .Func .sub)] }

/-! ## The evaluator -/

mutual
/-- Rust `fn eval(exp: &Expr, env: &mut Env) -> Result<Expr>`, in
state-passing style: the returned `Env` is the final state of the `&mut`
reference, on the error path as well. -/
def eval : Expr → Env → Except Err Expr × Env
  | .Symbol symbol, env =>
    match env.data.lookup symbol with
    | some v => (.ok v, env)
    | none => (.error (.Reason ("Unexpected symbol `" ++ String.mk symbol ++ "`")), env)
  | .Number n, env => (.ok (.Number n), env)
  | .List [], env => (.error (.Reason ("Expected non-empty list")), env)
  | .List (op :: args), env =>
    match eval op env with
    | (.error e, env1) => (.error e, env1)
    | (.ok opv, env1) =>
      match opv with
      | .Func f =>
        match evalArgs args env1 with
        | (.error e, env2) => (.error e, env2)
        | (.ok argv, env2) => (applyOp f argv, env2)
      | _ => (.error (.Reason ("Operator must be a function")), env1)
  | .Func _, env => (.error (.Reason ("Cannot evaluate a function")), env)
termination_by structural exp _ => exp

/-- The argument loop of `eval`:
`args.iter().map(|x| eval(x, env)).collect::<Result<Vec<_>>>()`. -/
def evalArgs : List Expr → Env → Except Err (List Expr) × Env
  | [], env => (.ok [], env)
  | x :: xs, env =>
    match eval x env with
    | (.error e, env1) => (.error e, env1)
    | (.ok v, env1) =>
      match evalArgs xs env1 with
      | (.error e, env2) => (.error e, env2)
      | (.ok vs, env2) => (.ok (v :: vs), env2)
termination_by structural xs _ => xs
end

/-- Rust `fn string_to_exp(lexemes: String, env: &mut Env) -> Result<Expr>`:
tokenize, parse — discarding whatever tokens remain — then evaluate. -/
def string_to_exp (lexemes : Str) (env : Env) : Except Err Expr × Env :=
  match parse (tokenize lexemes) with
  | .error e => (.error e, env)
  | .ok (parsed, _) => eval parsed env

/-! ## Rendering (Rust `impl fmt::Display for Expr`) -/

mutual
/-- Rust `Display`: a `Symbol` prints its text, a `Number` its decimal
value, a `List` the comma-joined renderings in parentheses. -/
def render : Expr → Str
  | .Symbol s => s
  | .Number n => numToString n
  | .List l => '(' :: (renderList l ++ [')'])
  | .Func _ => str ("Function")
termination_by structural e => e

/-- `Vec<String>::join(",")` over the rendered elements. -/
def renderList : List Expr → Str
  | [] => []
  | [e] => render e
  | e :: e2 :: es => render e ++ ',' :: renderList (e2 :: es)
termination_by structural l => l
end

/-! ## Structural predicates used by the claims -/

mutual
/-- `noFunc e`: no `Func` (`NativeOperation`) node anywhere in the tree. -/
def noFunc : Expr → Bool
  | .Symbol _ => true
  | .Number _ => true
  | .List l => noFuncList l
  | .Func _ => false
termination_by structural e => e

def noFuncList : List Expr → Bool
  | [] => true
  | e :: es => noFunc e && noFuncList es
termination_by structural l => l
end

/-- The separator `Display` joins list elements with. -/
def isComma (c : Char) : Bool := c = ','

/-- Split every token at commas — the separator `Display` uses — and
drop empty pieces: token streams are compared up to this normalization
("equivalent up to the chosen separator"). -/
def normalize (ts : List Str) : List Str :=
  (ts.map (splitP isComma)).flatten

/-- A token is canonically written when, if numeric, it is exactly the
rendering of its numeric value. -/
def canonicalTok (t : Str) : Bool :=
  match numParse t with
  | none => true
  | some q => numToString q == t

mutual
/-- `Produces e cs`: the parser, fed the tokens `cs` (followed by
anything), produces exactly `e` and consumes exactly `cs`.  This is the
inductive big-step description of `parse`; soundness and completeness
with respect to `parse` are proven below. -/
inductive Produces : Expr → List Str → Prop where
  | atom (t : Str) (h1 : t ≠ ['(']) (h2 : t ≠ [')']) : Produces (parse_atom t) [t]
  | list {es : List Expr} {cs : List Str} (h : ProducesSeq es cs) :
      Produces (.List es) (['('] :: (cs ++ [[')']]))

inductive ProducesSeq : List Expr → List Str → Prop where
  | nil : ProducesSeq [] []
  | cons {e : Expr} {cs : List Str} {es : List Expr} {cs2 : List Str}
      (h1 : Produces e cs) (h2 : ProducesSeq es cs2) :
      ProducesSeq (e :: es) (cs ++ cs2)
end


/-! ## Parser metatheory: `parse` against `Produces` -/

theorem Produces_head {e : Expr} {cs : List Str} (h : Produces e cs) :
    ∃ t cs0, cs = t :: cs0 ∧ t ≠ [')'] := by
  cases h with
  | atom t h1 h2 => exact ⟨t, [], rfl, h2⟩
  | list hseq => exact ⟨['('], _, rfl, by simp⟩

/-- Soundness: a successful `parse`/`read_seq` run consumed a prefix of
the token list that `Produces` its result. -/
theorem parse_sound_all (n : Nat) :
    (∀ ts e r, ts.length ≤ n → parse ts = .ok (e, r) →
      ∃ cs, ts = cs ++ r ∧ Produces e cs) ∧
    (∀ (acc : List Expr) ts eL r, ts.length ≤ n → readSeqAux acc ts = .ok (eL, r) →
      ∃ es cs, eL = .List (acc ++ es) ∧ ProducesSeq es cs ∧ ts = cs ++ [')'] :: r) := by
  induction n using Nat.strong_induction_on with
  | _ n ih =>
    have P1 : ∀ ts e r, ts.length ≤ n → parse ts = .ok (e, r) →
        ∃ cs, ts = cs ++ r ∧ Produces e cs := by
      intro ts e r hlen h
      match ts with
      | [] => rw [parse_nil] at h; exact absurd h (by simp)
      | t :: rest =>
        by_cases h1 : t = ['(']
        · subst h1
          rw [parse_cons_open] at h
          have hrn : rest.length < n := by
            simp only [List.length_cons] at hlen; omega
          obtain ⟨es, cs, hEL, hPS, hts⟩ := (ih rest.length hrn).2 [] rest e r le_rfl h
          refine ⟨['('] :: (cs ++ [[')']]), ?_, ?_⟩
          · rw [hts]; simp
          · rw [hEL]; simpa using Produces.list hPS
        · by_cases h2 : t = [')']
          · subst h2
            rw [parse_cons_close] at h
            exact absurd h (by simp)
          · rw [parse_cons_atom h1 h2] at h
            simp only [Except.ok.injEq, Prod.mk.injEq] at h
            refine ⟨[t], by simp [h.2], ?_⟩
            rw [← h.1]
            exact Produces.atom t h1 h2
    refine ⟨P1, ?_⟩
    intro acc ts eL r hlen h
    match ts with
    | [] => rw [readSeqAux_nil] at h; exact absurd h (by simp)
    | next :: rest =>
      by_cases hnx : next = [')']
      · subst hnx
        rw [readSeqAux_close] at h
        simp only [Except.ok.injEq, Prod.mk.injEq] at h
        exact ⟨[], [], by simp [← h.1], ProducesSeq.nil, by simp [h.2]⟩
      · rw [readSeqAux_cons hnx] at h
        cases hp : parse (next :: rest) with
        | error e2 => rw [hp] at h; exact absurd h (by simp)
        | ok pr =>
          obtain ⟨exp, nxs⟩ := pr
          rw [hp] at h
          simp only at h
          obtain ⟨cs1, hts1, hPe⟩ := P1 (next :: rest) exp nxs hlen hp
          have hnxs : nxs.length < n := by
            have := parse_consumes hp
            simp only [List.length_cons] at this hlen
            omega
          obtain ⟨es2, cs2, hEL2, hPS2, hts2⟩ :=
            (ih nxs.length hnxs).2 (acc ++ [exp]) nxs eL r le_rfl h
          refine ⟨exp :: es2, cs1 ++ cs2, ?_, ProducesSeq.cons hPe hPS2, ?_⟩
          · rw [hEL2]; simp
          · rw [hts1, hts2]; simp

/-- Soundness of `parse`: the consumed prefix `Produces` the result. -/
theorem parse_sound {ts : List Str} {e : Expr} {r : List Str}
    (h : parse ts = .ok (e, r)) : ∃ cs, ts = cs ++ r ∧ Produces e cs :=
  (parse_sound_all ts.length).1 ts e r le_rfl h

/-- Completeness: whatever a `Produces` derivation describes, `parse`
does, for any continuation of the token stream. -/
theorem parse_complete_all (n : Nat) :
    (∀ e cs, cs.length ≤ n → Produces e cs →
      ∀ ext, parse (cs ++ ext) = .ok (e, ext)) ∧
    (∀ es cs, cs.length ≤ n → ProducesSeq es cs →
      ∀ (acc : List Expr) ext,
        readSeqAux acc (cs ++ [')'] :: ext) = .ok (.List (acc ++ es), ext)) := by
  induction n using Nat.strong_induction_on with
  | _ n ih =>
    have P1 : ∀ e cs, cs.length ≤ n → Produces e cs →
        ∀ ext, parse (cs ++ ext) = .ok (e, ext) := by
      intro e cs hlen h ext
      cases h with
      | atom t h1 h2 => simpa using parse_cons_atom h1 h2 ext
      | list hseq =>
        rename_i es cs0
        have hl : cs0.length < n := by
          simp only [List.length_cons, List.length_append] at hlen
          omega
        have := (ih cs0.length hl).2 es cs0 le_rfl hseq [] ext
        calc parse ((['('] :: (cs0 ++ [[')']])) ++ ext)
            = parse (['('] :: (cs0 ++ [')'] :: ext)) := by simp
          _ = readSeqAux [] (cs0 ++ [')'] :: ext) := parse_cons_open _
          _ = .ok (.List es, ext) := by rw [this]; simp
    refine ⟨P1, ?_⟩
    intro es cs hlen h acc ext
    cases h with
    | nil => simpa using readSeqAux_close acc ext
    | cons h1 h2 =>
      rename_i e1 cs1 es2 cs2
      obtain ⟨t, cs0, hcs1, ht⟩ := Produces_head h1
      have hstep : (cs1 ++ cs2) ++ [')'] :: ext = t :: (cs0 ++ (cs2 ++ [')'] :: ext)) := by
        rw [hcs1]; simp
      rw [hstep, readSeqAux_cons ht]
      have hp : parse (t :: (cs0 ++ (cs2 ++ [')'] :: ext))) = .ok (e1, cs2 ++ [')'] :: ext) := by
        have hl1 : cs1.length ≤ n := by
          simp only [List.length_append] at hlen; omega
        have := P1 e1 cs1 hl1 h1 (cs2 ++ [')'] :: ext)
        rw [hcs1] at this
        simpa using this
      rw [hp]
      simp only
      have hl2 : cs2.length < n := by
        have : cs1.length ≠ 0 := by rw [hcs1]; simp
        simp only [List.length_append] at hlen
        omega
      have := (ih cs2.length hl2).2 es2 cs2 le_rfl h2 (acc ++ [e1]) ext
      rw [this]
      simp

/-- Completeness of `parse` for a single produced expression. -/
theorem parse_complete {e : Expr} {cs : List Str} (h : Produces e cs) (ext : List Str) :
    parse (cs ++ ext) = .ok (e, ext) :=
  (parse_complete_all cs.length).1 e cs le_rfl h ext


/-! ## Evaluator lemmas -/

/-! Unfolding equations of `eval`, one per shape the claims talk about. -/

theorem eval_symbol_miss {symbol : Str} {env : Env}
    (h : env.data.lookup symbol = none) :
    eval (.Symbol symbol) env =
      (.error (.Reason ("Unexpected symbol `" ++ String.mk symbol ++ "`")), env) := by
  unfold eval
  rw [h]

theorem eval_symbol_hit {symbol : Str} {env : Env} {v : Expr}
    (h : env.data.lookup symbol = some v) :
    eval (.Symbol symbol) env = (.ok v, env) := by
  unfold eval
  rw [h]

theorem eval_number (n : ℚ) (env : Env) :
    eval (.Number n) env = (.ok (.Number n), env) := rfl

theorem eval_func (f : NativeOp) (env : Env) :
    eval (.Func f) env = (.error (.Reason ("Cannot evaluate a function")), env) := rfl

theorem eval_empty_list (env : Env) :
    eval (.List []) env = (.error (.Reason ("Expected non-empty list")), env) := rfl

theorem eval_list_op_error {op : Expr} {env : Env} {e2 : Err} {env1 : Env}
    (h : eval op env = (.error e2, env1)) (args : List Expr) :
    eval (.List (op :: args)) env = (.error e2, env1) := by
  unfold eval
  rw [h]

theorem eval_list_op_not_func {op : Expr} {env : Env} {opv : Expr} {env1 : Env}
    (h : eval op env = (.ok opv, env1)) (hnf : ∀ f, opv ≠ .Func f)
    (args : List Expr) :
    eval (.List (op :: args)) env =
      (.error (.Reason ("Operator must be a function")), env1) := by
  unfold eval
  rw [h]
  cases opv with
  | Func f => exact absurd rfl (hnf f)
  | Symbol s => rfl
  | Number n => rfl
  | List l => rfl

theorem eval_list_op_func {op : Expr} {env : Env} {f : NativeOp} {env1 : Env}
    (h : eval op env = (.ok (.Func f), env1)) (args : List Expr) :
    eval (.List (op :: args)) env =
      (match evalArgs args env1 with
       | (.error e2, env2) => (.error e2, env2)
       | (.ok argv, env2) => (applyOp f argv, env2)) := by
  unfold eval
  rw [h]

theorem evalArgs_nil (env : Env) : evalArgs [] env = (.ok [], env) := rfl

theorem evalArgs_cons_error {x : Expr} {env : Env} {e2 : Err} {env1 : Env}
    (h : eval x env = (.error e2, env1)) (xs : List Expr) :
    evalArgs (x :: xs) env = (.error e2, env1) := by
  unfold evalArgs
  rw [h]

theorem evalArgs_cons_ok {x : Expr} {env : Env} {v : Expr} {env1 : Env}
    (h : eval x env = (.ok v, env1)) (xs : List Expr) :
    evalArgs (x :: xs) env =
      (match evalArgs xs env1 with
       | (.error e2, env2) => (.error e2, env2)
       | (.ok vs, env2) => (.ok (v :: vs), env2)) := by
  conv in evalArgs (x :: xs) env => unfold evalArgs
  rw [h]

mutual
/-- `eval` never changes the environment, on success or failure. -/
theorem eval_env_eq (e : Expr) (env : Env) : (eval e env).2 = env := by
  cases e with
  | Symbol symbol =>
    cases hl : env.data.lookup symbol with
    | none => rw [eval_symbol_miss hl]
    | some v => rw [eval_symbol_hit hl]
  | Number n => rfl
  | Func f => rfl
  | List l =>
    cases l with
    | nil => rfl
    | cons op args =>
      cases hop : eval op env with
      | mk res env1 =>
        have h1 : env1 = env := by
          have := eval_env_eq op env
          rw [hop] at this
          exact this
        cases res with
        | error e2 => rw [eval_list_op_error hop]; exact h1
        | ok opv =>
          cases opv with
          | Symbol s2 =>
            rw [eval_list_op_not_func hop (fun f => by simp) args]; exact h1
          | Number n2 =>
            rw [eval_list_op_not_func hop (fun f => by simp) args]; exact h1
          | List l2 =>
            rw [eval_list_op_not_func hop (fun f => by simp) args]; exact h1
          | Func f =>
            cases hargs : evalArgs args env1 with
            | mk ares env2 =>
              have h2 : env2 = env1 := by
                have := evalArgs_env_eq args env1
                rw [hargs] at this
                exact this
              cases ares with
              | error e2 =>
                rw [eval_list_op_func hop, hargs]; exact h2.trans h1
              | ok argv =>
                rw [eval_list_op_func hop, hargs]; exact h2.trans h1
termination_by structural e

/-- `evalArgs` never changes the environment. -/
theorem evalArgs_env_eq (xs : List Expr) (env : Env) : (evalArgs xs env).2 = env := by
  cases xs with
  | nil => rfl
  | cons x xs =>
    cases hx : eval x env with
    | mk res env1 =>
      have h1 : env1 = env := by
        have := eval_env_eq x env
        rw [hx] at this
        exact this
      cases res with
      | error e2 => rw [evalArgs_cons_error hx]; exact h1
      | ok v =>
        cases hxs : evalArgs xs env1 with
        | mk rs env2 =>
          have h2 : env2 = env1 := by
            have := evalArgs_env_eq xs env1
            rw [hxs] at this
            exact this
          cases rs with
          | error e2 => rw [evalArgs_cons_ok hx, hxs]; exact h2.trans h1
          | ok vs => rw [evalArgs_cons_ok hx, hxs]; exact h2.trans h1
termination_by structural xs
end

/-- Arguments are evaluated left to right; the first failing argument
aborts the whole list evaluation with its error. -/
theorem evalArgs_short_circuit {pre : List Expr} {env : Env} {vs : List Expr}
    {env1 : Env} (hpre : evalArgs pre env = (.ok vs, env1)) {a : Expr} {err : Err}
    {env2 : Env} (ha : eval a env1 = (.error err, env2)) (post : List Expr) :
    evalArgs (pre ++ a :: post) env = (.error err, env2) := by
  induction pre generalizing env vs with
  | nil =>
    rw [evalArgs_nil] at hpre
    simp only [Prod.mk.injEq, Except.ok.injEq] at hpre
    rw [List.nil_append]
    rw [evalArgs_cons_error (hpre.2 ▸ ha)]
  | cons x pre ih =>
    cases hx : eval x env with
    | mk res envx =>
      cases res with
      | error e2 =>
        rw [evalArgs_cons_error hx] at hpre
        exact absurd hpre.symm (by simp)
      | ok v =>
        rw [evalArgs_cons_ok hx] at hpre
        cases hrest : evalArgs pre envx with
        | mk rrest envr =>
          rw [hrest] at hpre
          cases rrest with
          | error e2 => simp at hpre
          | ok vs2 =>
            simp only [Prod.mk.injEq, Except.ok.injEq] at hpre
            rw [List.cons_append, evalArgs_cons_ok hx,
              ih (by rw [hrest, hpre.2])]


/-! ## Builtin lemmas -/

theorem parse_list_of_floats_map (qs : List ℚ) :
    parse_list_of_floats (qs.map .Number) = .ok qs := by
  induction qs with
  | nil => rfl
  | cons q qs ih => simp [parse_list_of_floats, parse_single_float, ih]

theorem parse_list_of_floats_error {args : List Expr}
    (h : ∃ a ∈ args, ∀ q : ℚ, a ≠ .Number q) :
    parse_list_of_floats args = .error (.Reason ("Expected a number")) := by
  induction args with
  | nil => simp at h
  | cons x xs ih =>
    obtain ⟨a, ha, hnum⟩ := h
    cases x with
    | Number q =>
      have hx : a ∈ xs := by
        rcases List.mem_cons.mp ha with h1 | h1
        · exact absurd rfl (h1 ▸ hnum q)
        · exact h1
      simp only [parse_list_of_floats, parse_single_float]
      rw [ih ⟨a, hx, hnum⟩]
    | Symbol s2 => simp [parse_list_of_floats, parse_single_float]
    | List l2 => simp [parse_list_of_floats, parse_single_float]
    | Func f2 => simp [parse_list_of_floats, parse_single_float]

theorem foldl_add_eq_sum (l : List ℚ) (a : ℚ) : l.foldl (· + ·) a = a + l.sum := by
  induction l generalizing a with
  | nil => simp
  | cons x xs ih => simp [ih]; ring

/-- C1: the builtin `-`, on evaluated arguments that are all numbers,
returns `first − sum(rest)`; with a single argument it returns that
argument unchanged (fold-subtract, not negation); with no arguments it
fails with the "requires at least one operand" reason. -/
theorem C1_sub_builtin :
    (∀ (q : ℚ) (qs : List ℚ),
      applyOp .sub ((q :: qs).map .Number) = .ok (.Number (q - qs.sum))) ∧
    (∀ q : ℚ, applyOp .sub [.Number q] = .ok (.Number q)) ∧
    applyOp .sub [] = .error (.Reason ("`-` requires at least one operand")) := by
  refine ⟨?_, ?_, rfl⟩
  · intro q qs
    simp only [applyOp, parse_list_of_floats_map]
    rw [foldl_add_eq_sum]
    simp
  · intro q
    have h := parse_list_of_floats_map [q]
    simp only [List.map_cons, List.map_nil] at h
    simp [applyOp, h]

/-- C5: the builtin `+` returns the sum of its numeric arguments
(`0` when there are none) and fails with "Expected a number" as soon as
any argument is not a `Number`. -/
theorem C5_add_builtin :
    (∀ qs : List ℚ, applyOp .add (qs.map .Number) = .ok (.Number qs.sum)) ∧
    applyOp .add [] = .ok (.Number 0) ∧
    (∀ args : List Expr, (∃ a ∈ args, ∀ q : ℚ, a ≠ .Number q) →
      applyOp .add args = .error (.Reason ("Expected a number"))) := by
  refine ⟨?_, rfl, ?_⟩
  · intro qs
    simp only [applyOp, parse_list_of_floats_map]
    rw [foldl_add_eq_sum]
    simp
  · intro args h
    simp only [applyOp]
    rw [parse_list_of_floats_error h]

/-- Witness for C5: `(+ 1 x)`-style argument lists with a non-number
fail with exactly the "Expected a number" reason. -/
theorem C5_add_builtin_witness :
    applyOp .add [.Number 1, .Symbol ['x']] = .error (.Reason ("Expected a number")) :=
  C5_add_builtin.2.2 [.Number 1, .Symbol ['x']]
    ⟨.Symbol ['x'], by simp, fun q => by simp⟩


/-! ## Claim C2: the exhaustive error behaviour of `eval` -/

/-- C2: `eval` fails exactly as follows — an unbound `Symbol` with
"Unexpected symbol `name`", the empty `List` with "Expected non-empty
list", a list whose evaluated operator is not a `Func` with "Operator
must be a function", a bare `Func` with "Cannot evaluate a function";
a bound `Symbol` and a `Number` succeed, and in the remaining case
(operator evaluates to a `Func`) the result is exactly determined by the
argument evaluations and the invoked builtin, failures propagating
unchanged. -/
theorem C2_eval_error_cases :
    (∀ (symbol : Str) (env : Env), env.data.lookup symbol = none →
      eval (.Symbol symbol) env =
        (.error (.Reason ("Unexpected symbol `" ++ String.mk symbol ++ "`")), env)) ∧
    (∀ (symbol : Str) (env : Env) (v : Expr), env.data.lookup symbol = some v →
      eval (.Symbol symbol) env = (.ok v, env)) ∧
    (∀ (n : ℚ) (env : Env), eval (.Number n) env = (.ok (.Number n), env)) ∧
    (∀ env : Env, eval (.List []) env =
      (.error (.Reason ("Expected non-empty list")), env)) ∧
    (∀ (op : Expr) (args : List Expr) (env : Env) (opv : Expr) (env1 : Env),
      eval op env = (.ok opv, env1) → (∀ f, opv ≠ .Func f) →
      eval (.List (op :: args)) env =
        (.error (.Reason ("Operator must be a function")), env1)) ∧
    (∀ (op : Expr) (args : List Expr) (env : Env) (e2 : Err) (env1 : Env),
      eval op env = (.error e2, env1) →
      eval (.List (op :: args)) env = (.error e2, env1)) ∧
    (∀ (op : Expr) (args : List Expr) (env : Env) (f : NativeOp) (env1 : Env),
      eval op env = (.ok (.Func f), env1) →
      eval (.List (op :: args)) env =
        (match evalArgs args env1 with
         | (.error e2, env2) => (.error e2, env2)
         | (.ok argv, env2) => (applyOp f argv, env2))) ∧
    (∀ (f : NativeOp) (env : Env),
      eval (.Func f) env = (.error (.Reason ("Cannot evaluate a function")), env)) := by
  refine ⟨?_, ?_, eval_number, eval_empty_list, ?_, ?_, ?_, eval_func⟩
  · intro symbol env h
    exact eval_symbol_miss h
  · intro symbol env v h
    exact eval_symbol_hit h
  · intro op args env opv env1 h hnf
    exact eval_list_op_not_func h hnf args
  · intro op args env e2 env1 h
    exact eval_list_op_error h args
  · intro op args env f env1 h
    exact eval_list_op_func h args

/-- Witness for C2, at concrete inputs: the unbound symbol `x`, the
number-in-operator-position list `(1 2)`, and the empty list `()`. -/
theorem C2_eval_error_cases_witness :
    eval (.Symbol ['x']) default_env =
      (.error (.Reason ("Unexpected symbol `" ++ String.mk ['x'] ++ "`")), default_env) ∧
    eval (.List [.Number 1, .Number 2]) default_env =
      (.error (.Reason ("Operator must be a function")), default_env) ∧
    eval (.List []) default_env =
      (.error (.Reason ("Expected non-empty list")), default_env) :=
  ⟨C2_eval_error_cases.1 ['x'] default_env rfl,
   C2_eval_error_cases.2.2.2.2.1 (.Number 1) [.Number 2] default_env
     (.Number 1) default_env rfl (fun f => by simp),
   C2_eval_error_cases.2.2.2.1 default_env⟩

/-! ## Claim C7: left-to-right argument evaluation, fail-fast -/

/-- C7: when the operator of a list evaluates to a `Func`, the arguments
are evaluated left to right and the first failing argument makes `eval`
return that failure unchanged, whatever arguments follow it (they are
never evaluated and the operation is never invoked: the result does not
depend on `post` or on the builtin). -/
theorem C7_arg_short_circuit
    (op : Expr) (pre : List Expr) (a : Expr) (post : List Expr) (env : Env)
    (f : NativeOp) (env1 : Env) (vs : List Expr) (env2 : Env) (err : Err) (env3 : Env)
    (hop : eval op env = (.ok (.Func f), env1))
    (hpre : evalArgs pre env1 = (.ok vs, env2))
    (ha : eval a env2 = (.error err, env3)) :
    eval (.List (op :: (pre ++ a :: post))) env = (.error err, env3) := by
  rw [eval_list_op_func hop, evalArgs_short_circuit hpre ha post]

/-- Witness for C7: in `(+ 1 x ())` the unbound `x` aborts evaluation
with its own error — the later argument `()` (which would fail with a
different reason) is never reached. -/
theorem C7_arg_short_circuit_witness :
    eval (.List [.Symbol ['+'], .Number 1, .Symbol ['x'], .List []]) default_env =
      (.error (.Reason ("Unexpected symbol `" ++ String.mk ['x'] ++ "`")), default_env) :=
  C7_arg_short_circuit (.Symbol ['+']) [.Number 1] (.Symbol ['x']) [.List []]
    default_env .add default_env [.Number 1] default_env
    (.Reason ("Unexpected symbol `" ++ String.mk ['x'] ++ "`")) default_env
    rfl rfl rfl

/-! ## Claim C8: evaluation never mutates the environment -/

/-- C8: after any call to `eval` (and to the composed `string_to_exp`),
whether it returns a value or an error, the environment is exactly what
it was before the call. -/
theorem C8_env_unchanged :
    (∀ (e : Expr) (env : Env), (eval e env).2 = env) ∧
    (∀ (s : Str) (env : Env), (string_to_exp s env).2 = env) := by
  refine ⟨eval_env_eq, ?_⟩
  intro s env
  unfold string_to_exp
  cases parse (tokenize s) with
  | error e2 => rfl
  | ok pr =>
    cases pr with
    | mk parsed rest => exact eval_env_eq parsed env

/-! ## Claim C10: trailing tokens are silently discarded -/

/-- C10: if the tokenization of the input splits as one completely
parseable expression followed by arbitrary further tokens, then
`string_to_exp` returns exactly the evaluation of that first expression:
the trailing tokens cause no error and do not affect the result. -/
theorem C10_trailing_tokens (s : Str) (ts1 ts2 : List Str) (e : Expr) (env : Env)
    (hsplit : tokenize s = ts1 ++ ts2) (hparse : parse ts1 = .ok (e, [])) :
    string_to_exp s env = eval e env := by
  obtain ⟨cs, hcs, hprod⟩ := parse_sound hparse
  simp only [List.append_nil] at hcs
  subst hcs
  unfold string_to_exp
  rw [hsplit, parse_complete hprod ts2]

/-- Witness for C10: `"(+ 1 2) )"` — the stray tokens after `(+ 1 2)`,
including an unmatched `)`, are ignored and the result is that of the
first expression. -/
theorem C10_trailing_tokens_witness :
    string_to_exp (str ("(+ 1 2) )")) default_env =
      eval (.List [.Symbol ['+'], .Number 1, .Number 2]) default_env :=
  C10_trailing_tokens (str ("(+ 1 2) )"))
    [['('], ['+'], ['1'], ['2'], [')']] [[')']]
    (.List [.Symbol ['+'], .Number 1, .Number 2]) default_env rfl rfl

/-! ## Claim C4: parsed trees never contain a `Func` node -/

theorem noFunc_of_produces_all (n : Nat) :
    (∀ e cs, cs.length ≤ n → Produces e cs → noFunc e = true) ∧
    (∀ es cs, cs.length ≤ n → ProducesSeq es cs → noFuncList es = true) := by
  induction n using Nat.strong_induction_on with
  | _ n ih =>
    have P1 : ∀ e cs, cs.length ≤ n → Produces e cs → noFunc e = true := by
      intro e cs hlen h
      cases h with
      | atom t h1 h2 =>
        cases hnp : numParse t <;> simp [parse_atom, hnp, noFunc]
      | list hseq =>
        rename_i es cs0
        have hl : cs0.length < n := by
          simp only [List.length_cons, List.length_append] at hlen
          omega
        have h2 := (ih cs0.length hl).2 es cs0 le_rfl hseq
        simpa [noFunc] using h2
    refine ⟨P1, ?_⟩
    intro es cs hlen h
    cases h with
    | nil => rfl
    | cons h1 h2 =>
      rename_i e1 cs1 es2 cs2
      obtain ⟨t, cs0, hcs1, -⟩ := Produces_head h1
      have hl1 : cs1.length ≤ n := by
        simp only [List.length_append] at hlen
        omega
      have hl2 : cs2.length < n := by
        subst hcs1
        simp only [List.length_append, List.length_cons] at hlen
        omega
      have g1 := P1 e1 cs1 hl1 h1
      have g2 := (ih cs2.length hl2).2 es2 cs2 le_rfl h2
      simp [noFuncList, g1, g2]

/-- C4: every expression returned by a successful `parse` is free of
`Func` (`NativeOperation`) nodes: only `Symbol`, `Number` and `List`
occur. -/
theorem C4_parse_no_func (ts : List Str) (e : Expr) (r : List Str)
    (h : parse ts = .ok (e, r)) : noFunc e = true := by
  obtain ⟨cs, hcs, hprod⟩ := parse_sound h
  exact (noFunc_of_produces_all cs.length).1 e cs le_rfl hprod

/-- Witness for C4 at the parse of `"(+ 1 2)"`. -/
theorem C4_parse_no_func_witness :
    noFunc (.List [.Symbol ['+'], .Number 1, .Number 2]) = true :=
  C4_parse_no_func (tokenize (str ("(+ 1 2)")))
    (.List [.Symbol ['+'], .Number 1, .Number 2]) [] rfl


/-! ## Claim C6: parse failures on structurally invalid input -/

/-- Depth scan of a token stream: `closed d ts` holds when, reading the
tokens left to right with `d` lists currently open, the outermost of
them gets its closing `)` before the tokens run out (a `(` token opens
a further list, a `)` closes the innermost open one, every other token
is an atom and leaves the nesting unchanged).  `closed 1 rest = false`
is the claim's condition for the stream following a `(`: "the closing
`)` is never found — the tokens are exhausted first". -/
def closed : Nat → List Str → Bool
  | 0, _ => true
  | _ + 1, [] => false
  | d + 1, t :: ts =>
    if t = [')'] then closed d ts
    else if t = ['('] then closed (d + 2) ts
    else closed (d + 1) ts
termination_by structural _ ts => ts

theorem closed_zero (ts : List Str) : closed 0 ts = true := by
  cases ts with
  | nil => rfl
  | cons t ts => rfl

theorem closed_succ_nil (d : Nat) : closed (d + 1) [] = false := rfl

theorem closed_succ_cons (d : Nat) (t : Str) (ts : List Str) :
    closed (d + 1) (t :: ts) =
      if t = [')'] then closed d ts
      else if t = ['('] then closed (d + 2) ts
      else closed (d + 1) ts := rfl

/-- Closing fewer open lists from the same stream is no harder: the
scan for the smaller depth reaches zero first. -/
theorem closed_mono (ts : List Str) : ∀ d : Nat,
    closed (d + 1) ts = true → closed d ts = true := by
  induction ts with
  | nil =>
    intro d h
    rw [closed_succ_nil] at h
    exact absurd h (by simp)
  | cons t ts ih =>
    intro d h
    match d with
    | 0 => rfl
    | d + 1 =>
      rw [closed_succ_cons] at h
      rw [closed_succ_cons]
      by_cases h1 : t = [')']
      · rw [if_pos h1] at h ⊢
        exact ih d h
      · rw [if_neg h1] at h ⊢
        by_cases h2 : t = ['(']
        · rw [if_pos h2] at h ⊢
          exact ih (d + 2) h
        · rw [if_neg h2] at h ⊢
          exact ih (d + 1) h

/-- Consuming one complete produced expression leaves the depth scan
where it was (at any strictly positive depth). -/
theorem closed_produces_all (n : Nat) :
    (∀ e cs, cs.length ≤ n → Produces e cs →
      ∀ (d : Nat) (ts : List Str), closed (d + 1) (cs ++ ts) = closed (d + 1) ts) ∧
    (∀ es cs, cs.length ≤ n → ProducesSeq es cs →
      ∀ (d : Nat) (ts : List Str), closed (d + 1) (cs ++ ts) = closed (d + 1) ts) := by
  induction n using Nat.strong_induction_on with
  | _ n ih =>
    have P1 : ∀ e cs, cs.length ≤ n → Produces e cs →
        ∀ (d : Nat) (ts : List Str), closed (d + 1) (cs ++ ts) = closed (d + 1) ts := by
      intro e cs hlen h d ts
      cases h with
      | atom t h1 h2 =>
        rw [List.singleton_append, closed_succ_cons, if_neg h2, if_neg h1]
      | list hseq =>
        rename_i es cs0
        have hl : cs0.length < n := by
          simp only [List.length_cons, List.length_append] at hlen
          omega
        have hseqc := (ih cs0.length hl).2 es cs0 le_rfl hseq (d + 1) ([')'] :: ts)
        calc closed (d + 1) ((['('] :: (cs0 ++ [[')']])) ++ ts)
            = closed (d + 1) (['('] :: (cs0 ++ [')'] :: ts)) := by simp
          _ = closed (d + 2) (cs0 ++ [')'] :: ts) := by
              rw [closed_succ_cons]
              simp
          _ = closed (d + 2) ([')'] :: ts) := hseqc
          _ = closed (d + 1) ts := by rw [closed_succ_cons, if_pos rfl]
    refine ⟨P1, ?_⟩
    intro es cs hlen h d ts
    cases h with
    | nil => rfl
    | cons h1 h2 =>
      rename_i e1 cs1 es2 cs2
      obtain ⟨t, cs0, hcs1, -⟩ := Produces_head h1
      have hl1 : cs1.length ≤ n := by
        simp only [List.length_append] at hlen
        omega
      have hl2 : cs2.length < n := by
        subst hcs1
        simp only [List.length_append, List.length_cons] at hlen
        omega
      calc closed (d + 1) ((cs1 ++ cs2) ++ ts)
          = closed (d + 1) (cs1 ++ (cs2 ++ ts)) := by rw [List.append_assoc]
        _ = closed (d + 1) (cs2 ++ ts) := P1 e1 cs1 hl1 h1 d (cs2 ++ ts)
        _ = closed (d + 1) ts := (ih cs2.length hl2).2 es2 cs2 le_rfl h2 d ts

/-- When the scan does find the closing `)`, the sequence reader
succeeds (so the characterization below is tight). -/
theorem readSeqAux_closed_ok (n : Nat) :
    ∀ ts : List Str, ts.length ≤ n → closed 1 ts = true →
      ∀ acc : List Expr, ∃ e r, readSeqAux acc ts = .ok (e, r) := by
  induction n using Nat.strong_induction_on with
  | _ n ih =>
    intro ts hlen hc acc
    match ts with
    | [] => exact absurd (closed_succ_nil 0 ▸ hc) (by simp)
    | next :: rest =>
      by_cases h1 : next = [')']
      · subst h1
        exact ⟨.List acc, rest, readSeqAux_close acc rest⟩
      · rw [readSeqAux_cons h1]
        by_cases h2 : next = ['(']
        · subst h2
          rw [closed_succ_cons, if_neg (by simp), if_pos rfl] at hc
          have hrlt : rest.length < n := by
            simp only [List.length_cons] at hlen
            omega
          obtain ⟨e1, r1, hin⟩ :=
            ih rest.length hrlt rest le_rfl (closed_mono rest 1 hc) []
          obtain ⟨es, cs, -, hseq, hrest⟩ :=
            (parse_sound_all rest.length).2 [] rest e1 r1 le_rfl hin
          have hr1 : closed 1 r1 = true := by
            have := (closed_produces_all cs.length).2 es cs le_rfl hseq 1 ([')'] :: r1)
            rw [← hrest] at this
            rw [← hc, this, closed_succ_cons, if_pos rfl]
          have hr1lt : r1.length < n := by
            have : r1.length < rest.length := by
              rw [hrest]
              simp only [List.length_append, List.length_cons]
              omega
            omega
          obtain ⟨e2, r2, hout⟩ := ih r1.length hr1lt r1 le_rfl hr1 (acc ++ [e1])
          rw [parse_cons_open, hin]
          exact ⟨e2, r2, by simp only; exact hout⟩
        · rw [closed_succ_cons, if_neg h1, if_neg h2] at hc
          have hrlt : rest.length < n := by
            simp only [List.length_cons] at hlen
            omega
          obtain ⟨e2, r2, hout⟩ :=
            ih rest.length hrlt rest le_rfl hc (acc ++ [parse_atom next])
          rw [parse_cons_atom h2 h1]
          exact ⟨e2, r2, by simp only; exact hout⟩

/-- When the scan never finds the closing `)` — the tokens are
exhausted first, at any nesting depth — the sequence reader fails with
the unclosed-parenthesis reason. -/
theorem readSeqAux_unclosed (n : Nat) :
    ∀ ts : List Str, ts.length ≤ n → closed 1 ts = false →
      ∀ acc : List Expr,
        readSeqAux acc ts = .error (.Reason ("Could not find closing `)`")) := by
  induction n using Nat.strong_induction_on with
  | _ n ih =>
    intro ts hlen hc acc
    match ts with
    | [] => exact readSeqAux_nil acc
    | next :: rest =>
      by_cases h1 : next = [')']
      · subst h1
        rw [closed_succ_cons, if_pos rfl, closed_zero] at hc
        exact absurd hc (by simp)
      · rw [readSeqAux_cons h1]
        by_cases h2 : next = ['(']
        · subst h2
          rw [closed_succ_cons, if_neg (by simp), if_pos rfl] at hc
          have hrlt : rest.length < n := by
            simp only [List.length_cons] at hlen
            omega
          rw [parse_cons_open]
          cases hcr : closed 1 rest with
          | false =>
            rw [ih rest.length hrlt rest le_rfl hcr []]
          | true =>
            obtain ⟨e1, r1, hin⟩ :=
              readSeqAux_closed_ok rest.length rest le_rfl hcr []
            obtain ⟨es, cs, -, hseq, hrest⟩ :=
              (parse_sound_all rest.length).2 [] rest e1 r1 le_rfl hin
            have hr1 : closed 1 r1 = false := by
              have := (closed_produces_all cs.length).2 es cs le_rfl hseq 1 ([')'] :: r1)
              rw [← hrest] at this
              rw [← hc, this, closed_succ_cons, if_pos rfl]
            have hr1lt : r1.length < n := by
              have : r1.length < rest.length := by
                rw [hrest]
                simp only [List.length_append, List.length_cons]
                omega
              omega
            rw [hin]
            simp only
            exact ih r1.length hr1lt r1 le_rfl hr1 (acc ++ [e1])
        · rw [closed_succ_cons, if_neg h1, if_neg h2] at hc
          have hrlt : rest.length < n := by
            simp only [List.length_cons] at hlen
            omega
          rw [parse_cons_atom h2 h1]
          simp only
          exact ih rest.length hrlt rest le_rfl hc (acc ++ [parse_atom next])

/-- C6: `parse` fails on each kind of structurally invalid token
sequence with its specific reason — empty input; a stream opening a
list whose closing `)` is never found, at any nesting (the depth scan
`closed` exhausts the tokens first); and a leading stray `)`. -/
theorem C6_parse_failures :
    parse [] = .error (.Reason ("Could not get token")) ∧
    (∀ rest : List Str, closed 1 rest = false →
      parse (['('] :: rest) = .error (.Reason ("Could not find closing `)`"))) ∧
    (∀ rest : List Str, parse ([')'] :: rest) = .error (.Reason ("Unexpected `)`"))) := by
  refine ⟨parse_nil, ?_, parse_cons_close⟩
  intro rest h
  rw [parse_cons_open]
  exact readSeqAux_unclosed rest.length rest le_rfl h []

/-- Witness for C6: the tokens of `"(a"` (no close token at all) and of
`"(()"` (the inner list closes, the outer never does) both fail with
the unclosed-parenthesis reason. -/
theorem C6_parse_failures_witness :
    parse [['('], ['a']] = .error (.Reason ("Could not find closing `)`")) ∧
    parse [['('], ['('], [')']] = .error (.Reason ("Could not find closing `)`")) :=
  ⟨C6_parse_failures.2.1 [['a']] (by decide),
   C6_parse_failures.2.1 [['('], [')']] (by decide)⟩

/-! ## Claim C9: the tokenizer -/

theorem ws_not_paren {c : Char} (h : c.isWhitespace = true) : c ≠ '(' ∧ c ≠ ')' := by
  constructor <;> rintro rfl <;> exact absurd h (by decide)

theorem splitP_token_then_sep {p : Char → Bool} {t : Str} (ht : t ≠ [])
    (hns : ∀ c ∈ t, ¬ p c) {c : Char} (hc : p c) (v : Str) :
    splitP p (t ++ c :: v) = t :: splitP p v := by
  rw [splitP_append_sep hc, splitP_no_sep hns ht]
  rfl

theorem splitP_single_then_sep {p : Char → Bool} {a c : Char} (ha : ¬ p a)
    (hc : p c) (v : Str) : splitP p (a :: c :: v) = [a] :: splitP p v := by
  have h := @splitP_token_then_sep p [a] (by simp)
    (fun d hd => by simpa [List.mem_singleton.mp hd] using ha) c hc v
  simpa using h

/-- C9: `tokenize` is total by construction; the empty and all-whitespace
inputs yield the empty token sequence; `"(+ 1 2)"` tokenizes to
`["(", "+", "1", "2", ")"]`, and so does any spelling of that expression
with arbitrary whitespace runs between the tokens. -/
theorem C9_tokenize :
    tokenize [] = [] ∧
    (∀ s : Str, (∀ c ∈ s, c.isWhitespace) → tokenize s = []) ∧
    tokenize (str ("(+ 1 2)")) = [['('], ['+'], ['1'], ['2'], [')']] ∧
    (∀ w1 w2 w3 w4 : Str,
      (∀ c ∈ w1, c.isWhitespace) → (∀ c ∈ w2, c.isWhitespace) →
      (∀ c ∈ w3, c.isWhitespace) → (∀ c ∈ w4, c.isWhitespace) →
      w2 ≠ [] → w3 ≠ [] →
      tokenize (['('] ++ w1 ++ ['+'] ++ w2 ++ ['1'] ++ w3 ++ ['2'] ++ w4 ++ [')']) =
        [['('], ['+'], ['1'], ['2'], [')']]) := by
  refine ⟨rfl, ?_, by decide, ?_⟩
  · intro s hws
    unfold tokenize
    rw [pad_no_paren (fun c hc => ws_not_paren (hws c hc))]
    exact splitP_all_sep hws
  · intro w1 w2 w3 w4 hw1 hw2 hw3 hw4 hne2 hne3
    obtain ⟨c2, w2', rfl⟩ := List.exists_cons_of_ne_nil hne2
    obtain ⟨c3, w3', rfl⟩ := List.exists_cons_of_ne_nil hne3
    have hc2 : (c2 : Char).isWhitespace := hw2 c2 (by simp)
    have hc3 : (c3 : Char).isWhitespace := hw3 c3 (by simp)
    have hw2t : ∀ c ∈ w2', c.isWhitespace := fun c hc => hw2 c (by simp [hc])
    have hw3t : ∀ c ∈ w3', c.isWhitespace := fun c hc => hw3 c (by simp [hc])
    unfold tokenize
    simp only [pad_append]
    rw [pad_no_paren (fun c hc => ws_not_paren (hw1 c hc)),
      pad_no_paren (fun c hc => ws_not_paren (hw2 c hc)),
      pad_no_paren (fun c hc => ws_not_paren (hw3 c hc)),
      pad_no_paren (fun c hc => ws_not_paren (hw4 c hc))]
    have hpo : pad ['('] = [' ', '(', ' '] := rfl
    have hpc : pad [')'] = [' ', ')', ' '] := rfl
    have hpp : pad ['+'] = ['+'] := rfl
    have hp1 : pad ['1'] = ['1'] := rfl
    have hp2 : pad ['2'] = ['2'] := rfl
    rw [hpo, hpc, hpp, hp1, hp2]
    simp only [List.cons_append, List.singleton_append, List.append_assoc, List.nil_append]
    rw [splitP_sep_cons (by decide)]
    rw [splitP_single_then_sep (by decide) (by decide)]
    rw [splitP_all_sep_append hw1]
    rw [splitP_single_then_sep (by decide) hc2]
    rw [splitP_all_sep_append hw2t]
    rw [splitP_single_then_sep (by decide) hc3]
    rw [splitP_all_sep_append hw3t]
    cases w4 with
    | nil =>
      simp only [List.nil_append]
      rw [splitP_single_then_sep (by decide) (by decide)]
      have : splitP (fun c => c.isWhitespace) [')', ' '] = [[')']] := by decide
      rw [this]
    | cons c4 w4' =>
      have hc4 : (c4 : Char).isWhitespace := hw4 c4 (by simp)
      have hw4t : ∀ c ∈ w4', c.isWhitespace := fun c hc => hw4 c (by simp [hc])
      simp only [List.cons_append]
      rw [splitP_single_then_sep (by decide) hc4]
      rw [splitP_all_sep_append hw4t]
      have : splitP (fun c => c.isWhitespace) [' ', ')', ' '] = [[')']] := by decide
      rw [this]

/-- Witness for C9: the all-whitespace edge case and the tab/newline
spelling of `"(+ 1 2)"`. -/
theorem C9_tokenize_witness :
    tokenize [' ', '\t', '\n'] = [] ∧
    tokenize (['('] ++ [' '] ++ ['+'] ++ ['\t', '\t'] ++ ['1'] ++ ['\n'] ++ ['2'] ++ [] ++ [')']) =
      [['('], ['+'], ['1'], ['2'], [')']] :=
  ⟨C9_tokenize.2.1 [' ', '\t', '\n'] (by decide),
   C9_tokenize.2.2.2 [' '] ['\t', '\t'] ['\n'] []
     (by decide) (by decide) (by decide) (by decide) (by decide) (by decide)⟩


/-! ## Claim C3: render/re-tokenize round trip -/

/-- No parenthesis character occurs in the string. -/
def parenfree (t : Str) : Prop := ∀ c ∈ t, c ≠ '(' ∧ c ≠ ')'

/-- Whitespace or the rendering separator: the separator set after the
comma-normalization. -/
def wsOrComma (c : Char) : Bool := c.isWhitespace || isComma c

theorem rawSplit_mem_no_sep {p : Char → Bool} :
    ∀ {u t : Str}, t ∈ rawSplit p u → ∀ c ∈ t, ¬ p c := by
  intro u
  induction u with
  | nil =>
    intro t ht
    simp only [rawSplit, List.mem_singleton] at ht
    subst ht
    simp
  | cons c cs ih =>
    intro t ht
    by_cases hc : p c
    · rw [rawSplit_sep_cons hc] at ht
      rcases List.mem_cons.mp ht with h1 | h1
      · subst h1; simp
      · exact ih h1
    · obtain ⟨h0, t0, hr⟩ := List.exists_cons_of_ne_nil (rawSplit_ne_nil p cs)
      rw [rawSplit_nonsep_cons hc hr] at ht
      rcases List.mem_cons.mp ht with h1 | h1
      · subst h1
        intro d hd
        rcases List.mem_cons.mp hd with h2 | h2
        · subst h2; exact hc
        · exact ih (hr ▸ List.mem_cons_self h0 t0) d h2
      · exact ih (hr ▸ List.mem_cons_of_mem h0 h1)

/-- In `pad s`, every whitespace-free fragment either contains no
parenthesis or is a lone parenthesis; moreover the first raw fragment
never contains a parenthesis (`pad` always puts a space before one). -/
theorem pad_fragments (s : Str) :
    (∀ t ∈ rawSplit (fun c => c.isWhitespace) (pad s),
      parenfree t ∨ t = ['('] ∨ t = [')']) ∧
    (∀ t ts', rawSplit (fun c => c.isWhitespace) (pad s) = t :: ts' → parenfree t) := by
  induction s with
  | nil =>
    constructor
    · intro t ht
      simp only [pad, rawSplit, List.mem_singleton] at ht
      subst ht
      exact Or.inl (by simp [parenfree])
    · intro t ts' h
      simp only [pad, rawSplit, List.cons.injEq] at h
      rw [← h.1]
      simp [parenfree]
  | cons c s ih =>
    by_cases h1 : c = '('
    · subst h1
      have hpad : pad ('(' :: s) = ' ' :: '(' :: ' ' :: pad s := by simp [pad]
      have hr : rawSplit (fun c => c.isWhitespace) (pad ('(' :: s)) =
          [] :: ['('] :: rawSplit (fun c => c.isWhitespace) (pad s) := by
        rw [hpad, rawSplit_sep_cons (by decide),
          rawSplit_nonsep_cons (by decide) (rawSplit_sep_cons (by decide) (pad s))]
      constructor
      · intro t ht
        rw [hr] at ht
        rcases List.mem_cons.mp ht with h2 | h2
        · subst h2; exact Or.inl (by simp [parenfree])
        · rcases List.mem_cons.mp h2 with h3 | h3
          · subst h3; exact Or.inr (Or.inl rfl)
          · exact ih.1 t h3
      · intro t ts' h
        rw [hr] at h
        rw [← (List.cons.injEq _ _ _ _).mp h |>.1]
        simp [parenfree]
    · by_cases h2 : c = ')'
      · subst h2
        have hpad : pad (')' :: s) = ' ' :: ')' :: ' ' :: pad s := by simp [pad]
        have hr : rawSplit (fun c => c.isWhitespace) (pad (')' :: s)) =
            [] :: [')'] :: rawSplit (fun c => c.isWhitespace) (pad s) := by
          rw [hpad, rawSplit_sep_cons (by decide),
            rawSplit_nonsep_cons (by decide) (rawSplit_sep_cons (by decide) (pad s))]
        constructor
        · intro t ht
          rw [hr] at ht
          rcases List.mem_cons.mp ht with h3 | h3
          · subst h3; exact Or.inl (by simp [parenfree])
          · rcases List.mem_cons.mp h3 with h4 | h4
            · subst h4; exact Or.inr (Or.inr rfl)
            · exact ih.1 t h4
        · intro t ts' h
          rw [hr] at h
          rw [← (List.cons.injEq _ _ _ _).mp h |>.1]
          simp [parenfree]
      · have hpad : pad (c :: s) = c :: pad s := by simp [pad, h1, h2]
        by_cases hw : c.isWhitespace
        · have hr : rawSplit (fun c => c.isWhitespace) (pad (c :: s)) =
              [] :: rawSplit (fun c => c.isWhitespace) (pad s) := by
            rw [hpad, rawSplit_sep_cons hw]
          constructor
          · intro t ht
            rw [hr] at ht
            rcases List.mem_cons.mp ht with h3 | h3
            · subst h3; exact Or.inl (by simp [parenfree])
            · exact ih.1 t h3
          · intro t ts' h
            rw [hr] at h
            rw [← (List.cons.injEq _ _ _ _).mp h |>.1]
            simp [parenfree]
        · obtain ⟨h0, t0, hr0⟩ :=
            List.exists_cons_of_ne_nil (rawSplit_ne_nil (fun c => c.isWhitespace) (pad s))
          have hr : rawSplit (fun c => c.isWhitespace) (pad (c :: s)) =
              (c :: h0) :: t0 := by
            rw [hpad, rawSplit_nonsep_cons hw hr0]
          have hhead : parenfree (c :: h0) := by
            intro d hd
            rcases List.mem_cons.mp hd with h3 | h3
            · subst h3; exact ⟨h1, h2⟩
            · exact ih.2 h0 t0 hr0 d h3
          constructor
          · intro t ht
            rw [hr] at ht
            rcases List.mem_cons.mp ht with h3 | h3
            · subst h3; exact Or.inl hhead
            · exact ih.1 t (hr0 ▸ List.mem_cons_of_mem h0 h3)
          · intro t ts' h
            rw [hr] at h
            rw [← (List.cons.injEq _ _ _ _).mp h |>.1]
            exact hhead

/-- Well-formedness of the tokens coming out of `tokenize`: nonempty,
whitespace-free, and parentheses occur only as the lone tokens. -/
theorem tokenize_wf (s : Str) : ∀ t ∈ tokenize s,
    t ≠ [] ∧ (∀ c ∈ t, ¬ c.isWhitespace) ∧ (parenfree t ∨ t = ['('] ∨ t = [')']) := by
  intro t ht
  have hf := List.mem_filter.mp ht
  refine ⟨?_, rawSplit_mem_no_sep hf.1, (pad_fragments s).1 t hf.1⟩
  intro hnil
  subst hnil
  simp at hf

/-- A canonically written atom token renders back to itself. -/
theorem render_parse_atom {t : Str} (hc : canonicalTok t = true) :
    render (parse_atom t) = t := by
  unfold canonicalTok at hc
  cases hnp : numParse t with
  | none => simp [parse_atom, hnp, render]
  | some q =>
    simp only [hnp] at hc
    simp [parse_atom, hnp, render, eq_of_beq hc]

theorem normalize_nil : normalize [] = [] := rfl

theorem normalize_cons (t : Str) (ts : List Str) :
    normalize (t :: ts) = splitP isComma t ++ normalize ts := by
  simp [normalize]

theorem normalize_append (a b : List Str) :
    normalize (a ++ b) = normalize a ++ normalize b := by
  simp [normalize]

/-- The bridge: comma-normalizing a tokenization is the same as
splitting the padded text on whitespace-or-comma at once. -/
theorem normalize_tokenize (u : Str) :
    normalize (tokenize u) = splitP wsOrComma (pad u) := by
  have h := splitP_comp (fun c => c.isWhitespace) isComma (pad u)
  exact h.symm

theorem pad_comma_cons (x : Str) : pad (',' :: x) = ',' :: pad x := by
  simp [pad]

/-- The inductive heart of the round trip: rendering a produced tree and
re-splitting on whitespace-or-comma reproduces the comma-normalization
of the producing tokens, provided the tokens are canonically written. -/
theorem render_roundtrip_all (n : Nat) :
    (∀ e cs, cs.length ≤ n → Produces e cs →
      (∀ t ∈ cs, t ≠ [] ∧ (∀ c ∈ t, ¬ c.isWhitespace) ∧
        (parenfree t ∨ t = ['('] ∨ t = [')'])) →
      (∀ t ∈ cs, canonicalTok t = true) →
      splitP wsOrComma (pad (render e)) = normalize cs) ∧
    (∀ es cs, cs.length ≤ n → ProducesSeq es cs →
      (∀ t ∈ cs, t ≠ [] ∧ (∀ c ∈ t, ¬ c.isWhitespace) ∧
        (parenfree t ∨ t = ['('] ∨ t = [')'])) →
      (∀ t ∈ cs, canonicalTok t = true) →
      splitP wsOrComma (pad (renderList es)) = normalize cs) := by
  induction n using Nat.strong_induction_on with
  | _ n ih =>
    have P1 : ∀ e cs, cs.length ≤ n → Produces e cs →
        (∀ t ∈ cs, t ≠ [] ∧ (∀ c ∈ t, ¬ c.isWhitespace) ∧
          (parenfree t ∨ t = ['('] ∨ t = [')'])) →
        (∀ t ∈ cs, canonicalTok t = true) →
        splitP wsOrComma (pad (render e)) = normalize cs := by
      intro e cs hlen h hwf hcanon
      cases h with
      | atom t h1 h2 =>
        obtain ⟨hne, hnws, hpar⟩ := hwf t (by simp)
        have hpf : parenfree t := by
          rcases hpar with h3 | h3 | h3
          · exact h3
          · exact absurd h3 h1
          · exact absurd h3 h2
        rw [render_parse_atom (hcanon t (by simp)), pad_no_paren hpf]
        have hsplit : splitP (fun c => c.isWhitespace) t = [t] :=
          splitP_no_sep hnws hne
        have hcomp := splitP_comp (fun c => c.isWhitespace) isComma t
        rw [hsplit] at hcomp
        simp only [List.map_cons, List.map_nil, List.flatten_cons,
          List.flatten_nil, List.append_nil] at hcomp
        rw [show splitP wsOrComma t = splitP isComma t from hcomp]
        rw [normalize_cons, normalize_nil, List.append_nil]
      | list hseq =>
        rename_i es cs0
        have hl : cs0.length < n := by
          simp only [List.length_cons, List.length_append] at hlen
          omega
        have hwf0 : ∀ t ∈ cs0, t ≠ [] ∧ (∀ c ∈ t, ¬ c.isWhitespace) ∧
            (parenfree t ∨ t = ['('] ∨ t = [')']) := by
          intro t ht
          exact hwf t (by simp [ht])
        have hcanon0 : ∀ t ∈ cs0, canonicalTok t = true := by
          intro t ht
          exact hcanon t (by simp [ht])
        have hih := (ih cs0.length hl).2 es cs0 le_rfl hseq hwf0 hcanon0
        have hpadr : pad (render (.List es)) =
            ' ' :: '(' :: ' ' :: (pad (renderList es) ++ ' ' :: ')' :: ' ' :: []) := by
          show pad ('(' :: (renderList es ++ [')'])) = _
          have : pad ('(' :: (renderList es ++ [')'])) =
              ' ' :: '(' :: ' ' :: pad (renderList es ++ [')']) := by simp [pad]
          rw [this, pad_append]
          rfl
        rw [hpadr]
        rw [splitP_sep_cons (by decide)]
        rw [@splitP_single_then_sep wsOrComma '(' ' ' (by decide) (by decide)]
        rw [splitP_append_sep (by decide)]
        have hclose : splitP wsOrComma [')', ' '] = [[')']] := by decide
        rw [hclose, hih]
        rw [normalize_cons, normalize_append]
        have h1 : splitP isComma ['('] = [['(']] := by decide
        have h2 : normalize [[')']] = [[')']] := by decide
        rw [h1, h2]
        rfl
    refine ⟨P1, ?_⟩
    intro es cs hlen h hwf hcanon
    cases h with
    | nil => rfl
    | cons h1 h2 =>
      rename_i e1 cs1 es2 cs2
      have hwf1 : ∀ t ∈ cs1, t ≠ [] ∧ (∀ c ∈ t, ¬ c.isWhitespace) ∧
          (parenfree t ∨ t = ['('] ∨ t = [')']) :=
        fun t ht => hwf t (by simp [ht])
      have hcanon1 : ∀ t ∈ cs1, canonicalTok t = true :=
        fun t ht => hcanon t (by simp [ht])
      have hwf2 : ∀ t ∈ cs2, t ≠ [] ∧ (∀ c ∈ t, ¬ c.isWhitespace) ∧
          (parenfree t ∨ t = ['('] ∨ t = [')']) :=
        fun t ht => hwf t (by simp [ht])
      have hcanon2 : ∀ t ∈ cs2, canonicalTok t = true :=
        fun t ht => hcanon t (by simp [ht])
      have hl1 : cs1.length ≤ n := by
        simp only [List.length_append] at hlen
        omega
      cases es2 with
      | nil =>
        cases h2
        have := P1 e1 cs1 hl1 h1 hwf1 hcanon1
        simpa [renderList, normalize_append] using this
      | cons e2 es3 =>
        obtain ⟨t, cs0, hcs1, -⟩ := Produces_head h1
        have hl2 : cs2.length < n := by
          subst hcs1
          simp only [List.length_append, List.length_cons] at hlen
          omega
        have hih2 := (ih cs2.length hl2).2 (e2 :: es3) cs2 le_rfl h2 hwf2 hcanon2
        have hren : renderList (e1 :: e2 :: es3) =
            render e1 ++ ',' :: renderList (e2 :: es3) := rfl
        rw [hren, pad_append, pad_comma_cons]
        rw [splitP_append_sep (by decide)]
        rw [P1 e1 cs1 hl1 h1 hwf1 hcanon1, hih2, normalize_append]

/-- C3 is refuted by the code on two fronts (see the amended claim):
the `Display` rendering joins list elements with commas, which the
tokenizer does not separate on, so re-tokenizing `"(a b)"` gives a
different token stream; and even up to comma-splitting, a numeric atom
that is not in canonical spelling (`"1.0"` renders as `"1"`) changes the
stream. -/
theorem C3_roundtrip_counterexample :
    (parse (tokenize (str ("(a b)"))) =
        .ok (.List [.Symbol ['a'], .Symbol ['b']], []) ∧
      tokenize (render (.List [.Symbol ['a'], .Symbol ['b']])) ≠
        tokenize (str ("(a b)"))) ∧
    (parse (tokenize (str ("1.0"))) = .ok (.Number 1, []) ∧
      normalize (tokenize (render (.Number 1))) ≠
        normalize (tokenize (str ("1.0")))) :=
  ⟨⟨rfl, by decide⟩, ⟨rfl, by decide⟩⟩

/-- C3 (amended): for input text that parses completely as one
expression and whose numeric atoms are canonically spelled, rendering
the parse tree and re-tokenizing reproduces the original token stream up
to the rendering's separator, i.e. after splitting tokens at commas on
both sides. -/
theorem C3_roundtrip_amended (s : Str) (e : Expr)
    (hp : parse (tokenize s) = .ok (e, []))
    (hcanon : ∀ t ∈ tokenize s, canonicalTok t = true) :
    normalize (tokenize (render e)) = normalize (tokenize s) := by
  obtain ⟨cs, hcs, hprod⟩ := parse_sound hp
  simp only [List.append_nil] at hcs
  rw [normalize_tokenize]
  have hwf : ∀ t ∈ cs, t ≠ [] ∧ (∀ c ∈ t, ¬ c.isWhitespace) ∧
      (parenfree t ∨ t = ['('] ∨ t = [')']) := by
    intro t ht
    exact tokenize_wf s t (hcs ▸ ht)
  have hcanon2 : ∀ t ∈ cs, canonicalTok t = true := by
    intro t ht
    exact hcanon t (hcs ▸ ht)
  rw [(render_roundtrip_all cs.length).1 e cs le_rfl hprod hwf hcanon2, hcs]

/-- Witness for the amended C3 at `"(add 1 2.5)"`. -/
theorem C3_roundtrip_amended_witness :
    normalize (tokenize (render (.List [.Symbol ['a', 'd', 'd'], .Number 1,
      .Number (5 / 2)]))) = normalize (tokenize (str ("(add 1 2.5)"))) :=
  C3_roundtrip_amended (str ("(add 1 2.5)"))
    (.List [.Symbol ['a', 'd', 'd'], .Number 1, .Number (5 / 2)])
    rfl (by decide)

end Largo
